import Mathlib

/-!
Verification development for the aggregate flamegraph feature.

Part 1 embeds `src/static/app/components/profiling/aggregateFlamegraphPanel.tsx`:
the panel reads the stored `hideSystemFrames` preference, issues the aggregate
flamegraph query, and renders a loading indicator, an empty-state warning, or
the flamegraph, wiring a frame filter into the profile-group provider.

Part 2 models the tree aggregator and view projector, which are described by
the specification (§4.3, §4.4) but whose code is not part of this fragment.
-/

/-- Embedding of `Frame` as used by the panel: only the `is_application`
classification flag is consulted (`applicationFrameOnly`). -/
structure Frame where
  is_application : Bool
deriving DecidableEq, Repr

/-- The `shared` section of the aggregate flamegraph query result: a flat list
of frames shared by the whole batch. -/
structure SharedData where
  frames : List Frame
deriving DecidableEq, Repr

/-- Result object returned by `useAggregateFlamegraphQuery` when data is
present. -/
structure FlamegraphData where
  shared : SharedData
deriving DecidableEq, Repr

/-- State of the aggregate flamegraph query: `data` is `none` when the query
returned no result object (`undefined` in the source), and `isLoading` tracks
the loading state. -/
structure AggregateFlamegraphQueryState where
  data : Option FlamegraphData
  isLoading : Bool

/-- Page-filters selection, read via `usePageFilters`; the panel forwards
`environments`, `projects` and `datetime` to the query unchanged. -/
structure PageFiltersSelection where
  environments : List String
  projects : List Nat
  datetime : String

/-- Query properties passed to `useAggregateFlamegraphQuery` at line 26:
`{transaction, environments, projects, datetime}`. -/
structure AggregateFlamegraphQueryProps where
  transaction : String
  environments : List String
  projects : List Nat
  datetime : String
deriving DecidableEq

/-- Embedding of line 32: `const isEmpty = data?.shared.frames.length === 0`.
Optional chaining on an absent `data` yields `undefined`, and
`undefined === 0` is `false`, so an absent result is not "empty". -/
def isEmpty (data : Option FlamegraphData) : Bool :=
  match data with
  | some d => d.shared.frames.length == 0
  | none => false

/-- Embedding of lines 92-94: `applicationFrameOnly(frame) { return
frame.is_application }`. -/
def applicationFrameOnly (frame : Frame) : Bool :=
  frame.is_application

/-- Model of `useLocalStorageState(key, defaultValue)`: the state is the
stored value when one exists, and `defaultValue` on first load. -/
def useLocalStorageState (stored : Option Bool) (defaultValue : Bool) : Bool :=
  stored.getD defaultValue

/-- Initial navigation-state preferences handed to `FlamegraphStateProvider`
at lines 60-67: `{sorting: 'alphabetical', view: 'bottom up'}`. -/
structure FlamegraphPreferences where
  sorting : String
  view : String
deriving DecidableEq

/-- The three mutually exclusive bodies rendered inside the panel at lines
71-82: the loading indicator, the empty-state warning, or the flamegraph
component (which receives the `hideSystemFrames` flag). -/
inductive PanelBody where
  | loadingIndicator
  | emptyStateWarning
  | aggregateFlamegraph (hideSystemFrames : Bool)
deriving DecidableEq, Repr

/-- Everything the panel render determines: the query props, the props of
`ProfileGroupProvider` (`input = data ?? null`, `frameFilter =
hideSystemFrames ? applicationFrameOnly : undefined`), the initial navigation
preferences, and which body is shown. -/
structure PanelRender where
  queryProps : AggregateFlamegraphQueryProps
  providerInput : Option FlamegraphData
  providerFrameFilter : Option (Frame → Bool)
  preferences : FlamegraphPreferences
  body : PanelBody

/-- Embedding of `AggregateFlamegraphPanel` (lines 19-90). `stored` is the
persisted `profiling-flamegraph-collapsed-frames` preference (absent on first
load); the hook default at line 23 is `true`. -/
def renderAggregateFlamegraphPanel (transaction : String)
    (selection : PageFiltersSelection) (stored : Option Bool)
    (query : AggregateFlamegraphQueryState) : PanelRender :=
  let hideSystemFrames := useLocalStorageState stored true
  { queryProps :=
      { transaction := transaction
        environments := selection.environments
        projects := selection.projects
        datetime := selection.datetime }
    providerInput := query.data
    providerFrameFilter :=
      if hideSystemFrames then some applicationFrameOnly else none
    preferences := { sorting := "alphabetical", view := "bottom up" }
    body :=
      if query.isLoading then PanelBody.loadingIndicator
      else if isEmpty query.data then PanelBody.emptyStateWarning
      else PanelBody.aggregateFlamegraph hideSystemFrames }

namespace Flame

/-- Modelled from the spec: the tree aggregator and view projector (§4.3,
§4.4) are not part of this repository fragment; only the panel wiring is.
A sample weight is a real-valued measurement that may be non-finite; finite
weights are represented exactly as rationals. -/
inductive RawWeight where
  | finite (q : ℚ)
  | nonFinite
deriving DecidableEq

/-- Modelled from the spec: a normalized sample is an ordered sequence of
frame ids, root-to-leaf, with an associated weight (§3). -/
structure Sample where
  stack : List Nat
  weight : RawWeight
deriving DecidableEq

/-- Modelled from the spec: a malformed sample has a negative or non-finite
weight, or an empty stack (§4.3 failure semantics, §7 MalformedSample). -/
def malformed (s : Sample) : Bool :=
  match s.weight with
  | .finite q => s.stack.isEmpty || decide (q < 0)
  | .nonFinite => true

/-- The numeric value of a sample weight; non-finite weights carry no value
(such samples are rejected before their weight is ever summed). -/
def Sample.weightValue (s : Sample) : ℚ :=
  match s.weight with
  | .finite q => q
  | .nonFinite => 0

/-- Modelled from the spec: a tree node stores accumulated `selfWeight` and
`totalWeight` and a mapping from frame id to child node (§3). Children are
kept sorted by frame id, reflecting that insertion order is not semantically
meaningful. -/
inductive Tree where
  | mk (selfWeight totalWeight : ℚ) (children : List (Nat × Tree))

/-- Accumulated total weight stored at a node. -/
def Tree.total : Tree → ℚ
  | .mk _ tw _ => tw

/-- Accumulated self weight stored at a node. -/
def Tree.self : Tree → ℚ
  | .mk sw _ _ => sw

/-- The children mapping of a node. -/
def Tree.children : Tree → List (Nat × Tree)
  | .mk _ _ ch => ch

/-- The implicit root node of an empty aggregation: zero weight, no
children. -/
def emptyTree : Tree := .mk 0 0 []

/-- Update the child keyed by frame id `f` in a sorted children list,
inserting a fresh node (updated from the empty node) when `f` is not yet
present at this position. -/
def modifyChild (f : Nat) (upd : Tree → Tree) : List (Nat × Tree) → List (Nat × Tree)
  | [] => [(f, upd emptyTree)]
  | (g, t) :: tl =>
    if f < g then (f, upd emptyTree) :: (g, t) :: tl
    else if f = g then (g, upd t) :: tl
    else (g, t) :: modifyChild f upd tl

/-- Modelled from the spec: descend the tree along a sample's stack path,
inserting child nodes not yet present, incrementing `totalWeight` of every
node along the path by the sample's weight and `selfWeight` only of the
path's terminal node (§4.3). -/
def addPath (w : ℚ) : List Nat → Tree → Tree
  | [], .mk sw tw ch => .mk (sw + w) (tw + w) ch
  | f :: rest, .mk sw tw ch => .mk sw (tw + w) (modifyChild f (addPath w rest) ch)

/-- Modelled from the spec: the aggregation result carries the tree and the
diagnostics reporting rejected malformed samples (§4.3). -/
structure AggResult where
  tree : Tree
  diagnostics : List Sample

/-- One step of the streaming fold: a malformed sample is rejected and
recorded in the diagnostics; an accepted sample's stack path is folded into
the tree. -/
def aggregateStep (r : AggResult) (s : Sample) : AggResult :=
  if malformed s then { r with diagnostics := r.diagnostics ++ [s] }
  else { r with tree := addPath s.weightValue s.stack r.tree }

/-- Modelled from the spec: `aggregate(samples) -> Tree` as a streaming fold
over the sample sequence, starting from the implicit root (§4.3). -/
def aggregate (samples : List Sample) : AggResult :=
  samples.foldl aggregateStep ⟨emptyTree, []⟩

/-- Sum of the stored total weights of a children list. -/
def childrenTotal : List (Nat × Tree) → ℚ
  | [] => 0
  | (_, t) :: tl => t.total + childrenTotal tl

/-- The spec's structural invariant (§3): at every node of the tree,
`totalWeight == selfWeight + Σ children.totalWeight`, recursively. -/
inductive WF : Tree → Prop where
  | mk : ∀ (sw tw : ℚ) (ch : List (Nat × Tree)),
      tw = sw + childrenTotal ch →
      (∀ p ∈ ch, WF p.2) →
      WF (.mk sw tw ch)

/-- The tree component of one aggregation step, used to relate the fold on
`AggResult` to a fold on trees alone. -/
def treeStep (t : Tree) (s : Sample) : Tree :=
  if malformed s then t else addPath s.weightValue s.stack t

/-- Sum of the weights of the accepted (non-malformed) samples of a batch. -/
def acceptedWeightSum (l : List Sample) : ℚ :=
  ((l.filter (fun s => !malformed s)).map Sample.weightValue).sum

mutual
/-- Modelled from the spec: merging two trees sums corresponding weights and
takes the union of the children keyed by frame id (§4.3). -/
def mergeTree : Tree → Tree → Tree
  | .mk s1 t1 c1, .mk s2 t2 c2 => .mk (s1 + s2) (t1 + t2) (mergeChildren c1 c2)

/-- Sorted union-by-key of two children lists; children sharing a frame id
are merged recursively. -/
def mergeChildren : List (Nat × Tree) → List (Nat × Tree) → List (Nat × Tree)
  | [], l => l
  | l@(_ :: _), [] => l
  | (f, t) :: tl, (g, u) :: ul =>
    if f < g then (f, t) :: mergeChildren tl ((g, u) :: ul)
    else if g < f then (g, u) :: mergeChildren ((f, t) :: tl) ul
    else (f, mergeTree t u) :: mergeChildren tl ul
end

mutual
/-- Modelled from the spec: project a tree through a frame filter predicate.
A node whose frame fails the predicate is elided; its surviving children are
hoisted to the nearest surviving ancestor, and its weight is folded into that
ancestor's `selfWeight` contribution, never discarded (§4.4 frameFilter).
The argument node itself is the nearest surviving ancestor (the root always
survives). -/
def filterTree (pred : Nat → Bool) : Tree → Tree
  | .mk sw tw ch =>
    let r := filterChildren pred ch
    .mk (sw + r.2) tw r.1

/-- Filter a children list: returns the surviving children together with the
elided weight to be folded into the enclosing surviving ancestor's
`selfWeight`. -/
def filterChildren (pred : Nat → Bool) :
    List (Nat × Tree) → List (Nat × Tree) × ℚ
  | [] => ([], 0)
  | (f, t) :: tl =>
    let rest := filterChildren pred tl
    if pred f then
      (mergeChildren [(f, filterTree pred t)] rest.1, rest.2)
    else
      match t with
      | .mk sw _tw ch =>
        let inner := filterChildren pred ch
        (mergeChildren inner.1 rest.1, rest.2 + inner.2 + sw)
end

end Flame

/-- C1: for a completed (non-loading) query with a result object present, the
panel renders the empty-state warning exactly when the result's shared frames
list has length zero; the loading state is checked first and takes precedence
over the emptiness check. -/
theorem completed_result_empty_state_iff_no_shared_frames :
    (∀ (tx : String) (sel : PageFiltersSelection) (st : Option Bool)
        (d : FlamegraphData),
      (renderAggregateFlamegraphPanel tx sel st ⟨some d, false⟩).body
          = PanelBody.emptyStateWarning
        ↔ d.shared.frames.length = 0)
    ∧ (∀ (tx : String) (sel : PageFiltersSelection) (st : Option Bool)
        (data : Option FlamegraphData),
      (renderAggregateFlamegraphPanel tx sel st ⟨data, true⟩).body
          = PanelBody.loadingIndicator) := by
  constructor
  · intro tx sel st d
    simp only [renderAggregateFlamegraphPanel, isEmpty]
    by_cases h : d.shared.frames.length = 0
    · simp [h]
    · simp [h]
  · intro tx sel st data
    simp [renderAggregateFlamegraphPanel]

/-- C2 counterexample: on first load (no stored preference) the
`hideSystemFrames` state is `true`, not `false`, and a frame filter IS applied
to the profile-group provider, contradicting the claimed default of `false`
with no filter. -/
theorem first_load_filter_default_is_not_false :
    ¬ (useLocalStorageState none true = false)
      ∧ ¬ ((renderAggregateFlamegraphPanel "tx" ⟨[], [], "14d"⟩ none
            ⟨none, false⟩).providerFrameFilter = none) := by
  constructor
  · decide
  · intro h
    simp [renderAggregateFlamegraphPanel, useLocalStorageState] at h

/-- C2 (amended): on first load (no stored user preference) the
application-frames-only filter is ENABLED: the hook default is `true`, so the
`applicationFrameOnly` frame filter is applied and system frames are hidden by
default. -/
theorem first_load_hides_system_frames_by_default :
    useLocalStorageState none true = true
    ∧ ∀ (tx : String) (sel : PageFiltersSelection)
        (q : AggregateFlamegraphQueryState),
      (renderAggregateFlamegraphPanel tx sel none q).providerFrameFilter
        = some applicationFrameOnly := by
  exact ⟨rfl, fun tx sel q => rfl⟩

/-- C3: with the filter enabled (stored preference `true`), the frame filter
passed to the profile-group provider is exactly the predicate accepting a
frame iff its `is_application` flag is true; with the filter disabled (stored
preference `false`), no frame filter is passed at all. -/
theorem frame_filter_is_application_predicate :
    (∀ (tx : String) (sel : PageFiltersSelection)
        (q : AggregateFlamegraphQueryState),
      (renderAggregateFlamegraphPanel tx sel (some true) q).providerFrameFilter
        = some applicationFrameOnly)
    ∧ (∀ f : Frame, applicationFrameOnly f = f.is_application)
    ∧ (∀ (tx : String) (sel : PageFiltersSelection)
        (q : AggregateFlamegraphQueryState),
      (renderAggregateFlamegraphPanel tx sel (some false) q).providerFrameFilter
        = none) := by
  refine ⟨fun tx sel q => rfl, fun f => rfl, fun tx sel q => rfl⟩

/-- C4: the query props depend only on the transaction and the page-filters
selection, and the provider input is the query result itself; neither changes
when the stored `hideSystemFrames` preference is toggled, so a filter toggle
re-triggers neither the query nor the aggregation, only the projection. -/
theorem filter_toggle_leaves_query_inputs_unchanged :
    ∀ (tx : String) (sel : PageFiltersSelection) (st st' : Option Bool)
      (q : AggregateFlamegraphQueryState),
      (renderAggregateFlamegraphPanel tx sel st q).queryProps
          = (renderAggregateFlamegraphPanel tx sel st' q).queryProps
      ∧ (renderAggregateFlamegraphPanel tx sel st q).providerInput
          = (renderAggregateFlamegraphPanel tx sel st' q).providerInput := by
  intro tx sel st st' q
  exact ⟨rfl, rfl⟩

/-- C5: the initial navigation state configured by the panel uses sorting
`'alphabetical'` and view `'bottom up'`. -/
theorem initial_preferences_alphabetical_bottom_up :
    ∀ (tx : String) (sel : PageFiltersSelection) (st : Option Bool)
      (q : AggregateFlamegraphQueryState),
      (renderAggregateFlamegraphPanel tx sel st q).preferences
        = { sorting := "alphabetical", view := "bottom up" } := by
  intro tx sel st q
  rfl

/-- C10: when the query has finished loading but returned no result object,
the emptiness test is false, so the flamegraph branch is rendered and the
provider receives a null input; the empty state appears exactly when a result
object is present whose shared frames list has length zero. -/
theorem absent_result_renders_flamegraph_with_null_input :
    (∀ (tx : String) (sel : PageFiltersSelection) (st : Option Bool),
      isEmpty none = false
      ∧ (renderAggregateFlamegraphPanel tx sel st ⟨none, false⟩).body
          = PanelBody.aggregateFlamegraph (useLocalStorageState st true)
      ∧ (renderAggregateFlamegraphPanel tx sel st ⟨none, false⟩).providerInput
          = none)
    ∧ (∀ (tx : String) (sel : PageFiltersSelection) (st : Option Bool)
        (data : Option FlamegraphData),
      (renderAggregateFlamegraphPanel tx sel st ⟨data, false⟩).body
          = PanelBody.emptyStateWarning
        ↔ ∃ d, data = some d ∧ d.shared.frames.length = 0) := by
  constructor
  · intro tx sel st
    refine ⟨rfl, ?_, rfl⟩
    simp [renderAggregateFlamegraphPanel, isEmpty]
  · intro tx sel st data
    cases data with
    | none =>
      simp [renderAggregateFlamegraphPanel, isEmpty]
    | some d =>
      simp only [renderAggregateFlamegraphPanel, isEmpty]
      by_cases h : d.shared.frames.length = 0
      · simp [h]
        exact List.length_eq_zero.mp h
      · simp [h]
        intro hh
        exact h (by simp [hh])


namespace Flame

theorem total_addPath (w : ℚ) (p : List Nat) (t : Tree) :
    (addPath w p t).total = t.total + w := by
  cases p <;> cases t <;> rfl

theorem total_emptyTree : emptyTree.total = 0 := rfl

theorem childrenTotal_modifyChild (f : Nat) (u : Tree → Tree) (w : ℚ)
    (h : ∀ t, (u t).total = t.total + w) :
    ∀ ch : List (Nat × Tree),
      childrenTotal (modifyChild f u ch) = childrenTotal ch + w := by
  intro ch
  induction ch with
  | nil =>
    simp [modifyChild, childrenTotal, h, total_emptyTree]
  | cons p tl ih =>
    obtain ⟨g, t⟩ := p
    by_cases hfg : f < g
    · simp [modifyChild, hfg, childrenTotal, h, total_emptyTree]
      ring
    · by_cases heq : f = g
      · simp [modifyChild, hfg, heq, childrenTotal, h]
        ring
      · simp [modifyChild, hfg, heq, childrenTotal, ih]
        ring

theorem mem_modifyChild (f : Nat) (u : Tree → Tree) :
    ∀ (ch : List (Nat × Tree)) (q : Nat × Tree), q ∈ modifyChild f u ch →
      q ∈ ch ∨ ∃ t, q = (f, u t) ∧ (t = emptyTree ∨ (f, t) ∈ ch) := by
  intro ch
  induction ch with
  | nil =>
    intro q hq
    simp [modifyChild] at hq
    exact Or.inr ⟨emptyTree, by simp [hq]⟩
  | cons p tl ih =>
    obtain ⟨g, t⟩ := p
    intro q hq
    by_cases hfg : f < g
    · simp [modifyChild, hfg] at hq
      rcases hq with h1 | h2 | h3
      · exact Or.inr ⟨emptyTree, by simp [h1]⟩
      · exact Or.inl (by simp [h2])
      · exact Or.inl (by simp [h3])
    · by_cases heq : f = g
      · subst heq
        simp [modifyChild, hfg] at hq
        rcases hq with h1 | h2
        · exact Or.inr ⟨t, by simp [h1]⟩
        · exact Or.inl (by simp [h2])
      · simp [modifyChild, hfg, heq] at hq
        rcases hq with h1 | h2
        · exact Or.inl (by simp [h1])
        · rcases ih q h2 with h3 | ⟨t', ht', hmem⟩
          · exact Or.inl (by simp [h3])
          · refine Or.inr ⟨t', ht', ?_⟩
            rcases hmem with h4 | h5
            · exact Or.inl h4
            · exact Or.inr (by simp [h5])

theorem WF_emptyTree : WF emptyTree := by
  refine WF.mk 0 0 [] (by simp [childrenTotal]) (by simp)

theorem WF_addPath (w : ℚ) (p : List Nat) :
    ∀ t : Tree, WF t → WF (addPath w p t) := by
  induction p with
  | nil =>
    intro t h
    cases h with
    | mk sw tw ch heq hch =>
      exact WF.mk (sw + w) (tw + w) ch (by rw [heq]; ring) hch
  | cons f rest ih =>
    intro t h
    cases h with
    | mk sw tw ch heq hch =>
      refine WF.mk sw (tw + w) (modifyChild f (addPath w rest) ch) ?_ ?_
      · rw [childrenTotal_modifyChild f _ w (fun t => total_addPath w rest t) ch,
          heq]
        ring
      · intro q hq
        rcases mem_modifyChild f _ ch q hq with hmem | ⟨t', ht', hcase⟩
        · exact hch q hmem
        · rcases hcase with h1 | h2
          · subst h1
            rw [ht']
            exact ih emptyTree WF_emptyTree
          · rw [ht']
            exact ih t' (hch (f, t') h2)

theorem foldl_aggregateStep_tree (l : List Sample) :
    ∀ (t : Tree) (d : List Sample),
      (l.foldl aggregateStep ⟨t, d⟩).tree = l.foldl treeStep t := by
  induction l with
  | nil => intro t d; rfl
  | cons s tl ih =>
    intro t d
    by_cases h : malformed s
    · simp [List.foldl_cons, aggregateStep, treeStep, h, ih]
    · simp [List.foldl_cons, aggregateStep, treeStep, h, ih]

theorem foldl_aggregateStep_diagnostics (l : List Sample) :
    ∀ (t : Tree) (d : List Sample),
      (l.foldl aggregateStep ⟨t, d⟩).diagnostics = d ++ l.filter malformed := by
  induction l with
  | nil => intro t d; simp
  | cons s tl ih =>
    intro t d
    by_cases h : malformed s
    · simp [List.foldl_cons, aggregateStep, h, ih, List.filter_cons]
    · simp [List.foldl_cons, aggregateStep, h, ih, List.filter_cons]

theorem foldl_treeStep_filter (l : List Sample) :
    ∀ t : Tree,
      l.foldl treeStep t = (l.filter (fun s => !malformed s)).foldl treeStep t := by
  induction l with
  | nil => intro t; rfl
  | cons s tl ih =>
    intro t
    by_cases h : malformed s
    · simp [List.foldl_cons, treeStep, h, ih, List.filter_cons]
    · simp [List.foldl_cons, treeStep, h, ih, List.filter_cons]

theorem foldl_treeStep_total (l : List Sample) :
    ∀ t : Tree, (l.foldl treeStep t).total = t.total + acceptedWeightSum l := by
  induction l with
  | nil => intro t; simp [acceptedWeightSum]
  | cons s tl ih =>
    intro t
    by_cases h : malformed s
    · simp [List.foldl_cons, treeStep, h, ih, acceptedWeightSum, List.filter_cons]
    · simp [List.foldl_cons, treeStep, h, ih, acceptedWeightSum, List.filter_cons,
        total_addPath]
      ring

theorem WF_foldl_treeStep (l : List Sample) :
    ∀ t : Tree, WF t → WF (l.foldl treeStep t) := by
  induction l with
  | nil => intro t h; exact h
  | cons s tl ih =>
    intro t h
    by_cases hm : malformed s
    · simp [List.foldl_cons, treeStep, hm]
      exact ih t h
    · simp [List.foldl_cons, treeStep, hm]
      exact ih _ (WF_addPath _ _ t h)

theorem modifyChild_congr (f : Nat) (u v : Tree → Tree) (h : ∀ t, u t = v t) :
    ∀ ch : List (Nat × Tree), modifyChild f u ch = modifyChild f v ch := by
  intro ch
  induction ch with
  | nil => simp [modifyChild, h]
  | cons p tl ih =>
    obtain ⟨g, t⟩ := p
    by_cases hfg : f < g
    · simp [modifyChild, hfg, h]
    · by_cases heq : f = g
      · simp [modifyChild, hfg, heq, h]
      · simp [modifyChild, hfg, heq, ih]

theorem modifyChild_same (f : Nat) (u v : Tree → Tree) :
    ∀ ch : List (Nat × Tree),
      modifyChild f u (modifyChild f v ch) = modifyChild f (fun t => u (v t)) ch := by
  intro ch
  induction ch with
  | nil => simp [modifyChild]
  | cons p tl ih =>
    obtain ⟨g, t⟩ := p
    by_cases hfg : f < g
    · simp [modifyChild, hfg, lt_irrefl]
    · by_cases heq : f = g
      · subst heq
        simp [modifyChild, hfg, lt_irrefl]
      · simp [modifyChild, hfg, heq, ih]

end Flame

namespace Flame

theorem modifyChild_comm (f g : Nat) (u v : Tree → Tree) (hne : f ≠ g) :
    ∀ ch : List (Nat × Tree),
      modifyChild f u (modifyChild g v ch) = modifyChild g v (modifyChild f u ch) := by
  intro ch
  induction ch with
  | nil =>
    rcases Nat.lt_trichotomy f g with hfg | hfg | hfg
    · have h1 : ¬ g < f := by omega
      simp [modifyChild, hfg, h1, hne, hne.symm]
    · exact absurd hfg hne
    · have h1 : ¬ f < g := by omega
      simp [modifyChild, hfg, h1, hne, hne.symm]
  | cons p tl ih =>
    obtain ⟨k, t⟩ := p
    rcases Nat.lt_trichotomy f g with hfg | hfg | hfg
    · rcases Nat.lt_trichotomy f k with hfk | hfk | hfk
      · rcases Nat.lt_trichotomy g k with hgk | hgk | hgk
        · have h1 : ¬ g < f := by omega
          simp [modifyChild, hfk, hgk, hfg, h1, hne, hne.symm]
        · subst hgk
          have h1 : ¬ g < f := by omega
          have h2 : ¬ g < g := by omega
          simp [modifyChild, hfk, hfg, h1, h2, hne, hne.symm]
        · have h1 : ¬ g < f := by omega
          have h2 : ¬ g < k := by omega
          have h3 : ¬ g = k := by omega
          simp [modifyChild, hfk, hgk, hfg, h1, h2, h3, hne, hne.symm]
      · subst hfk
        have h1 : ¬ g < f := by omega
        have h2 : ¬ f < f := by omega
        simp [modifyChild, hfg, h1, h2, hne, hne.symm]
      · have h1 : ¬ f < k := by omega
        have h2 : ¬ f = k := by omega
        have h3 : ¬ g < k := by omega
        have h4 : ¬ g = k := by omega
        simp [modifyChild, h1, h2, h3, h4, ih]
    · exact absurd hfg hne
    · rcases Nat.lt_trichotomy g k with hgk | hgk | hgk
      · rcases Nat.lt_trichotomy f k with hfk | hfk | hfk
        · have h1 : ¬ f < g := by omega
          simp [modifyChild, hfk, hgk, hfg, h1, hne, hne.symm]
        · subst hfk
          have h1 : ¬ f < g := by omega
          have h2 : ¬ f < f := by omega
          simp [modifyChild, hgk, hfg, h1, h2, hne, hne.symm]
        · have h1 : ¬ f < g := by omega
          have h2 : ¬ f < k := by omega
          have h3 : ¬ f = k := by omega
          simp [modifyChild, hfk, hgk, hfg, h1, h2, h3, hne, hne.symm]
      · subst hgk
        have h1 : ¬ f < g := by omega
        have h2 : ¬ g < g := by omega
        simp [modifyChild, hfg, h1, h2, hne, hne.symm]
      · have h1 : ¬ g < k := by omega
        have h2 : ¬ g = k := by omega
        have h3 : ¬ f < k := by omega
        have h4 : ¬ f = k := by omega
        simp [modifyChild, h1, h2, h3, h4, ih]

theorem addPath_comm (w1 w2 : ℚ) (p1 : List Nat) :
    ∀ (p2 : List Nat) (t : Tree),
      addPath w1 p1 (addPath w2 p2 t) = addPath w2 p2 (addPath w1 p1 t) := by
  induction p1 with
  | nil =>
    intro p2 t
    cases p2 with
    | nil =>
      cases t with
      | mk sw tw ch =>
        simp only [addPath, Tree.mk.injEq]
        refine ⟨?_, ?_, ?_⟩ <;> first | trivial | ring
    | cons g s =>
      cases t with
      | mk sw tw ch =>
        simp only [addPath, Tree.mk.injEq]
        refine ⟨?_, ?_, ?_⟩ <;> first | trivial | ring
  | cons f r ih =>
    intro p2 t
    cases p2 with
    | nil =>
      cases t with
      | mk sw tw ch =>
        simp only [addPath, Tree.mk.injEq]
        refine ⟨?_, ?_, ?_⟩ <;> first | trivial | ring
    | cons g s =>
      cases t with
      | mk sw tw ch =>
        simp only [addPath]
        by_cases hfg : f = g
        · subst hfg
          rw [modifyChild_same, modifyChild_same,
            modifyChild_congr f _ _ (fun t => ih s t) ch]
          have h1 : tw + w2 + w1 = tw + w1 + w2 := by ring
          rw [h1]
        · rw [modifyChild_comm f g _ _ hfg]
          have h1 : tw + w2 + w1 = tw + w1 + w2 := by ring
          rw [h1]

theorem aggregate_eq (l : List Sample) :
    aggregate l = ⟨l.foldl treeStep emptyTree, l.filter malformed⟩ := by
  have h1 : (aggregate l).tree = l.foldl treeStep emptyTree :=
    foldl_aggregateStep_tree l emptyTree []
  have h2 : (aggregate l).diagnostics = l.filter malformed := by
    have h := foldl_aggregateStep_diagnostics l emptyTree []
    simpa using h
  calc aggregate l = ⟨(aggregate l).tree, (aggregate l).diagnostics⟩ := rfl
    _ = ⟨l.foldl treeStep emptyTree, l.filter malformed⟩ := by rw [h1, h2]

/-- C6: for every sample set, every node of the aggregated tree satisfies
`totalWeight = selfWeight + Σ children.totalWeight` (the recursive invariant
`WF`), and the root's total weight equals the sum of the weights of all
accepted (non-malformed) samples. -/
theorem aggregate_wf_and_total (samples : List Sample) :
    WF (aggregate samples).tree
    ∧ (aggregate samples).tree.total = acceptedWeightSum samples := by
  have htree : (aggregate samples).tree = samples.foldl treeStep emptyTree :=
    foldl_aggregateStep_tree samples emptyTree []
  constructor
  · rw [htree]
    exact WF_foldl_treeStep samples emptyTree WF_emptyTree
  · rw [htree, foldl_treeStep_total, total_emptyTree, zero_add]

/-- C7: aggregating any permutation of a sample sequence yields an identical
tree, in structure and weights; the per-sample merge is commutative and
associative over weight addition. -/
theorem aggregate_perm (l1 l2 : List Sample) (h : l1.Perm l2) :
    (aggregate l1).tree = (aggregate l2).tree := by
  rw [aggregate_eq l1, aggregate_eq l2]
  refine h.foldl_eq' ?_ emptyTree
  intro x _hx y _hy z
  by_cases hmx : malformed x
  · by_cases hmy : malformed y <;> simp [treeStep, hmx, hmy]
  · by_cases hmy : malformed y
    · simp [treeStep, hmx, hmy]
    · simp only [treeStep, hmx, hmy, Bool.false_eq_true, if_false]
      exact addPath_comm _ _ _ _ _

/-- Witness for C7 at a concrete two-sample batch and its swap. -/
theorem aggregate_perm_check :
    (aggregate [⟨[0, 1], RawWeight.finite 1⟩, ⟨[0, 2], RawWeight.finite 2⟩]).tree
      = (aggregate [⟨[0, 2], RawWeight.finite 2⟩, ⟨[0, 1], RawWeight.finite 1⟩]).tree :=
  aggregate_perm _ _ (List.Perm.swap _ _ _)

/-- C8: a malformed sample in a batch is rejected and recorded in the
result's diagnostics; the remaining samples still aggregate (the tree equals
the aggregation of the accepted samples alone), and the rejected sample
contributes nothing to any node's total weight (the root total is the
accepted-weight sum); aggregation is a total function and never aborts. -/
theorem aggregate_rejects_malformed (samples : List Sample) (s : Sample)
    (hmem : s ∈ samples) (hmal : malformed s = true) :
    s ∈ (aggregate samples).diagnostics
    ∧ (aggregate samples).tree
        = (aggregate (samples.filter (fun x => !malformed x))).tree
    ∧ (aggregate samples).tree.total = acceptedWeightSum samples := by
  refine ⟨?_, ?_, ?_⟩
  · rw [aggregate_eq]
    simp [List.mem_filter, hmem, hmal]
  · rw [aggregate_eq, aggregate_eq, foldl_treeStep_filter]
  · rw [aggregate_eq, foldl_treeStep_total, total_emptyTree, zero_add]

/-- Witness for C8: a batch holding the empty-stack sample and one good
sample. -/
theorem aggregate_rejects_malformed_check :
    (⟨[], RawWeight.finite 1⟩ : Sample)
        ∈ (aggregate [⟨[], RawWeight.finite 1⟩, ⟨[5], RawWeight.finite 2⟩]).diagnostics
    ∧ (aggregate [⟨[], RawWeight.finite 1⟩, ⟨[5], RawWeight.finite 2⟩]).tree
        = (aggregate (([⟨[], RawWeight.finite 1⟩, ⟨[5], RawWeight.finite 2⟩] :
            List Sample).filter (fun x => !malformed x))).tree
    ∧ (aggregate [⟨[], RawWeight.finite 1⟩, ⟨[5], RawWeight.finite 2⟩]).tree.total
        = acceptedWeightSum [⟨[], RawWeight.finite 1⟩, ⟨[5], RawWeight.finite 2⟩] :=
  aggregate_rejects_malformed _ _ (by simp) (by rfl)

end Flame

namespace Flame

theorem total_mergeTree (t u : Tree) :
    (mergeTree t u).total = t.total + u.total := by
  cases t with
  | mk s1 t1 c1 =>
    cases u with
    | mk s2 t2 c2 => simp [mergeTree, Tree.total]

theorem childrenTotal_mergeChildren :
    ∀ a b : List (Nat × Tree),
      childrenTotal (mergeChildren a b) = childrenTotal a + childrenTotal b := by
  intro a
  induction a with
  | nil => intro b; simp [mergeChildren, childrenTotal]
  | cons p tl iha =>
    obtain ⟨f, t⟩ := p
    intro b
    induction b with
    | nil => simp [mergeChildren, childrenTotal]
    | cons q ul ihb =>
      obtain ⟨g, u⟩ := q
      by_cases hfg : f < g
      · simp [mergeChildren, hfg, childrenTotal, iha]
        ring
      · by_cases hgf : g < f
        · simp [mergeChildren, hfg, hgf, childrenTotal] at ihb ⊢
          rw [ihb]
          ring
        · simp [mergeChildren, hfg, hgf, childrenTotal, iha, total_mergeTree]
          ring

theorem mem_mergeChildren :
    ∀ a b : List (Nat × Tree), ∀ q ∈ mergeChildren a b,
      q ∈ a ∨ q ∈ b
        ∨ ∃ f t u, q = (f, mergeTree t u) ∧ (f, t) ∈ a ∧ (f, u) ∈ b := by
  intro a
  induction a with
  | nil => intro b q hq; simp [mergeChildren] at hq; exact Or.inr (Or.inl hq)
  | cons p tl iha =>
    obtain ⟨f, t⟩ := p
    intro b
    induction b with
    | nil =>
      intro q hq
      simp [mergeChildren] at hq
      rcases hq with h | h
      · exact Or.inl (by simp [h])
      · exact Or.inl (by simp [h])
    | cons pb ul ihb =>
      obtain ⟨g, u⟩ := pb
      intro q hq
      by_cases hfg : f < g
      · simp only [mergeChildren, if_pos hfg, List.mem_cons] at hq
        rcases hq with h | h
        · exact Or.inl (by simp [h])
        · rcases iha ((g, u) :: ul) q h with h1 | h1 | ⟨f', t', u', he, h2, h3⟩
          · exact Or.inl (by simp [h1])
          · exact Or.inr (Or.inl h1)
          · exact Or.inr (Or.inr ⟨f', t', u', he, by simp [h2], h3⟩)
      · by_cases hgf : g < f
        · simp only [mergeChildren, if_neg hfg, if_pos hgf, List.mem_cons] at hq
          rcases hq with h | h
          · exact Or.inr (Or.inl (by simp [h]))
          · rcases ihb q h with h1 | h1 | ⟨f', t', u', he, h2, h3⟩
            · exact Or.inl h1
            · exact Or.inr (Or.inl (by simp [h1]))
            · exact Or.inr (Or.inr ⟨f', t', u', he, h2, by simp [h3]⟩)
        · have heq : f = g := by omega
          subst heq
          simp only [mergeChildren, if_neg hfg, if_neg hgf, List.mem_cons] at hq
          rcases hq with h | h
          · exact Or.inr (Or.inr ⟨f, t, u, by simp [h]⟩)
          · rcases iha ul q h with h1 | h1 | ⟨f', t', u', he, h2, h3⟩
            · exact Or.inl (by simp [h1])
            · exact Or.inr (Or.inl (by simp [h1]))
            · exact Or.inr (Or.inr ⟨f', t', u', he, by simp [h2], by simp [h3]⟩)

theorem WF_mergeTree_aux :
    ∀ n : Nat, ∀ t u : Tree, sizeOf t + sizeOf u ≤ n →
      WF t → WF u → WF (mergeTree t u) := by
  intro n
  induction n with
  | zero =>
    intro t u hle
    cases t with
    | mk s1 t1 c1 => simp at hle
  | succ n ih =>
    intro t u hle hwt hwu
    cases hwt with
    | mk s1 t1 c1 heq1 hch1 =>
      cases hwu with
      | mk s2 t2 c2 heq2 hch2 =>
        simp only [mergeTree]
        refine WF.mk _ _ _ ?_ ?_
        · rw [childrenTotal_mergeChildren, heq1, heq2]
          ring
        · intro q hq
          rcases mem_mergeChildren c1 c2 q hq with h | h | ⟨f, t', u', he, h2, h3⟩
          · exact hch1 q h
          · exact hch2 q h
          · subst he
            have hs1 : sizeOf t' < sizeOf (Tree.mk s1 t1 c1) := by
              have := List.sizeOf_lt_of_mem h2
              simp at this ⊢
              omega
            have hs2 : sizeOf u' < sizeOf (Tree.mk s2 t2 c2) := by
              have := List.sizeOf_lt_of_mem h3
              simp at this ⊢
              omega
            exact ih t' u' (by omega) (hch1 _ h2) (hch2 _ h3)

theorem WF_mergeTree (t u : Tree) (ht : WF t) (hu : WF u) : WF (mergeTree t u) :=
  WF_mergeTree_aux (sizeOf t + sizeOf u) t u le_rfl ht hu

theorem total_filterTree (pred : Nat → Bool) (t : Tree) :
    (filterTree pred t).total = t.total := by
  cases t with
  | mk sw tw ch => simp [filterTree, Tree.total]

theorem filterChildren_conserves_aux :
    ∀ n : Nat, ∀ pred : Nat → Bool, ∀ ch : List (Nat × Tree), sizeOf ch ≤ n →
      (∀ p ∈ ch, WF p.2) →
      childrenTotal (filterChildren pred ch).1 + (filterChildren pred ch).2
          = childrenTotal ch
        ∧ ∀ q ∈ (filterChildren pred ch).1, WF q.2 := by
  intro n
  induction n with
  | zero =>
    intro pred ch hle hch
    cases ch with
    | nil => simp [filterChildren, childrenTotal]
    | cons p tl => simp at hle
  | succ n ih =>
    intro pred ch hle hch
    cases ch with
    | nil => simp [filterChildren, childrenTotal]
    | cons p tl =>
      obtain ⟨f, t⟩ := p
      have hsz_tl : sizeOf tl ≤ n := by simp at hle; omega
      have hrest := ih pred tl hsz_tl (fun q hq => hch q (List.mem_cons_of_mem _ hq))
      have hwt : WF t := hch (f, t) (List.mem_cons_self _ _)
      by_cases hp : pred f
      · -- the child survives; filter its subtree and merge it back in
        cases t with
        | mk sw tw tch =>
          have hsz_tch : sizeOf tch ≤ n := by simp at hle; omega
          have hinner := ih pred tch hsz_tch (by
            intro q hq
            cases hwt with
            | mk _ _ _ _ hmem => exact hmem q hq)
          have hwft : WF (filterTree pred (Tree.mk sw tw tch)) := by
            simp only [filterTree]
            refine WF.mk _ _ _ ?_ hinner.2
            cases hwt with
            | mk _ _ _ heq _ =>
              rw [← hinner.1] at heq
              rw [heq]; ring
          constructor
          · simp only [filterChildren, if_pos hp]
            rw [childrenTotal_mergeChildren]
            simp only [childrenTotal]
            rw [total_filterTree]
            rw [← hrest.1]
            simp [Tree.total]
            ring
          · simp only [filterChildren, if_pos hp]
            intro q hq
            rcases mem_mergeChildren _ _ q hq with h | h | ⟨f', t', u', he, h2, h3⟩
            · simp only [List.mem_singleton] at h
              rw [h]
              exact hwft
            · exact hrest.2 q h
            · subst he
              simp only [List.mem_singleton, Prod.mk.injEq] at h2
              refine WF_mergeTree t' u' ?_ (hrest.2 _ h3)
              rw [h2.2]
              exact hwft
      · -- the child is elided: hoist its filtered children, fold its weight
        cases t with
        | mk sw tw tch =>
          have hsz_tch : sizeOf tch ≤ n := by simp at hle; omega
          have hinner := ih pred tch hsz_tch (by
            intro q hq
            cases hwt with
            | mk _ _ _ _ hmem => exact hmem q hq)
          have heqt : tw = sw + childrenTotal tch := by
            cases hwt with
            | mk _ _ _ heq _ => exact heq
          constructor
          · simp only [filterChildren, if_neg hp]
            rw [childrenTotal_mergeChildren]
            simp only [childrenTotal, Tree.total]
            linarith [hrest.1, hinner.1, heqt]
          · simp only [filterChildren, if_neg hp]
            intro q hq
            rcases mem_mergeChildren _ _ q hq with h | h | ⟨f', t', u', he, h2, h3⟩
            · exact hinner.2 q h
            · exact hrest.2 q h
            · subst he
              exact WF_mergeTree t' u' (hinner.2 _ h2) (hrest.2 _ h3)

theorem WF_filterTree (pred : Nat → Bool) (t : Tree) (h : WF t) :
    WF (filterTree pred t) := by
  cases t with
  | mk sw tw ch =>
    have hach : ∀ p ∈ ch, WF p.2 := by
      cases h with
      | mk _ _ _ _ hmem => exact hmem
    have hc := filterChildren_conserves_aux (sizeOf ch) pred ch le_rfl hach
    simp only [filterTree]
    refine WF.mk _ _ _ ?_ hc.2
    have heq : tw = sw + childrenTotal ch := by
      cases h with
      | mk _ _ _ heq _ => exact heq
    rw [← hc.1] at heq
    rw [heq]; ring


/-- C9: projecting an aggregated (well-formed) tree through a frame filter
predicate conserves the root's total weight exactly, and the filtered tree
still satisfies the weight invariant at every node: every elided node's
weight is folded into the nearest surviving ancestor's `selfWeight` (or into
the root), so no weight is silently lost. -/
theorem filter_conserves_root_total (pred : Nat → Bool) (t : Tree) (h : WF t) :
    (filterTree pred t).total = t.total ∧ WF (filterTree pred t) :=
  ⟨total_filterTree pred t, WF_filterTree pred t h⟩

/-- Witness for C9: filtering a concrete aggregated two-path tree with a
predicate that elides the shared parent frame. -/
theorem filter_conserves_root_total_check :
    (filterTree (fun f => decide (f = 1))
        (aggregate [⟨[0, 1], RawWeight.finite 1⟩,
          ⟨[0, 2], RawWeight.finite 2⟩]).tree).total
      = (aggregate [⟨[0, 1], RawWeight.finite 1⟩,
          ⟨[0, 2], RawWeight.finite 2⟩]).tree.total
    ∧ WF (filterTree (fun f => decide (f = 1))
        (aggregate [⟨[0, 1], RawWeight.finite 1⟩,
          ⟨[0, 2], RawWeight.finite 2⟩]).tree) := by
  refine filter_conserves_root_total _ _ ?_
  rw [aggregate_eq]
  exact WF_foldl_treeStep _ _ WF_emptyTree

end Flame
